import Mathlib

/-!
Verification of the mpv-utils chat-synchronisation core against its source.

The development shallowly embeds the three core components:
  * the chat buffer engine (`src/mpv-utils/twitch_chat.py`, class `TwitchChat`),
  * the playback-synchronised printer (`src/mpv-utils/printer.py`),
  * the MPV IPC transport client (`src/twitch-vod-chat/mpv.py`, class `MPV`).

Python-level behaviours that matter to the claims (negative-index slicing,
`int()` truncation, `range()` rejecting floats, `list.remove` raising
`ValueError`, reading an unbound loop variable raising `NameError`, insertion
semantics of `dict`) are modelled explicitly.  Fallible code returns
`Except PyErr _`.
-/

namespace MpvUtils

/-- The Python exception kinds the embedded code can raise. -/
inductive PyErr where
  | typeError
  | valueError
  | indexError
  | nameError
  | keyError
  deriving DecidableEq, Repr

/-- Python `int(q)` on a float/rational: truncation toward zero. -/
def pyInt (q : ℚ) : ℤ := if 0 ≤ q then ⌊q⌋ else -⌊-q⌋

/-- Clamp a (possibly negative) Python index to an absolute position in a list
of length `len`, following Python slice-endpoint semantics. -/
def pyIdx (len : ℕ) (i : ℤ) : ℕ :=
  if 0 ≤ i then min i.toNat len else len - min (-i).toNat len

/-- Python `lst[a:b]`. -/
def pySliceGet (l : List α) (a b : ℤ) : List α :=
  (l.take (pyIdx l.length b)).drop (pyIdx l.length a)

/-- Python `del lst[:c]`: what remains of `lst` after deleting the slice. -/
def pyDelFront (l : List α) (c : ℤ) : List α :=
  l.drop (pyIdx l.length c)

/-- A buffered chat message.  Only the fields the buffer algorithms read are
kept: the timestamp (`content_offset_seconds`, a float, here `ℚ`) and the
Python object identity (`TwitchMessage` defines no `__eq__`, so `==` between
message objects compares identity). -/
structure Msg where
  objId : ℕ
  timestamp : ℚ
  deriving DecidableEq, Repr

/-- Python `a == b` on two `TwitchMessage` objects: identity comparison. -/
def msgIs (a b : Msg) : Bool := a.objId = b.objId

/-- The `time_slices` dict: integer second ↦ (first index, last index).
Represented as an insertion-ordered association list with unique keys. -/
abbrev SliceMap := List (ℤ × ℤ × ℤ)

/-- `d[k] = v` on a Python dict: overwrite if present, else append. -/
def smSet (m : SliceMap) (k : ℤ) (v : ℤ × ℤ) : SliceMap :=
  if m.any (fun p => p.1 = k) then
    m.map (fun p => if p.1 = k then (k, v) else p)
  else m ++ [(k, v)]

/-- `d.get(k)` on a Python dict. -/
def smGet? (m : SliceMap) (k : ℤ) : Option (ℤ × ℤ) :=
  (m.find? (fun p => p.1 = k)).map (fun p => p.2)

/-- `del d[k]` on a Python dict (`KeyError` when absent). -/
def smDel (m : SliceMap) (k : ℤ) : Except PyErr SliceMap :=
  if m.any (fun p => p.1 = k) then .ok (m.filter (fun p => ¬ p.1 = k))
  else .error .keyError

/-- `d.keys()`. -/
def smKeys (m : SliceMap) : List ℤ := m.map (fun p => p.1)

/-- The loop body of `TwitchChat._update_indexes`: iterate over the enumerated
message list, writing a dict entry each time the integer timestamp changes.
Returns the dict together with the final `start_index` and
`current_timestamp`. -/
def buildSlicesLoop : List Msg → ℕ → ℤ → ℤ → SliceMap → SliceMap × ℤ × ℤ
  | [], _, startIndex, currentTimestamp, acc => (acc, startIndex, currentTimestamp)
  | m :: rest, i, startIndex, currentTimestamp, acc =>
    let t := pyInt m.timestamp
    if t ≠ currentTimestamp then
      buildSlicesLoop rest (i + 1) (i : ℤ) t (smSet acc currentTimestamp (startIndex, (i : ℤ) - 1))
    else
      buildSlicesLoop rest (i + 1) startIndex currentTimestamp acc

/-- `TwitchChat._update_indexes`, returning the rebuilt `time_slices` and the
new `loaded_range`.  With an empty message list the statement after the loop
reads the loop variable `i`, which was never bound (`NameError`); with an
empty key set the single-argument `min(last_requested_position)` raises
`TypeError`. -/
def updateIndexes (lastRequestedPosition : ℤ) (messages : List Msg) :
    Except PyErr (SliceMap × ℤ × ℤ) := do
  if messages.isEmpty then throw .nameError
  let (acc, startIndex, currentTimestamp) := buildSlicesLoop messages 0 (-1) (-1) []
  let acc := smSet acc currentTimestamp (startIndex, (messages.length : ℤ) - 1)
  let acc ← smDel acc (-1)
  let keys := smKeys acc
  if keys.isEmpty then throw .typeError
  let lo := keys.foldl min lastRequestedPosition
  let hi := (keys.foldl max (keys.headD 0)) - 1
  pure (acc, lo, hi)

/-- Closed-form description of the slice dict built by `_update_indexes` on a
run-sorted message list: one entry per maximal run of equal integer
timestamps, holding the run's first and last absolute index.  Used as the
specification that `buildSlicesLoop` is proved to satisfy. -/
def runEntries (i : ℕ) : List Msg → SliceMap
  | [] => []
  | m :: rest =>
    let t := pyInt m.timestamp
    let k := (rest.takeWhile (fun x => pyInt x.timestamp = t)).length
    (t, (i : ℤ), (i : ℤ) + k) ::
      runEntries (i + k + 1) (rest.dropWhile (fun x => pyInt x.timestamp = t))
termination_by l => l.length
decreasing_by
  simp only [List.length_cons]
  exact Nat.lt_succ_of_le (List.dropWhile_sublist _).length_le

/-- The upper bound of `loaded_range`: an integer, or the `float('inf')`
end-of-stream sentinel installed by `_load_more` when the cursor is
exhausted. -/
inductive ExtInt where
  | int (n : ℤ)
  | inf
  deriving DecidableEq, Repr

/-- `timestamp in range(lo, hi + 1)`.  When `hi` is the `float('inf')`
sentinel, `range()` rejects the float bound with a `TypeError`. -/
def rangeContains (lo : ℤ) (hi : ExtInt) (t : ℤ) : Except PyErr Bool :=
  match hi with
  | .inf => .error .typeError
  | .int h => .ok (decide (lo ≤ t ∧ t ≤ h))

/-- The mutable state of a `TwitchChat` instance that the buffer algorithms
touch. -/
structure ChatState where
  messages : List Msg
  time_slices : SliceMap
  loaded_lo : ℤ
  loaded_hi : ExtInt
  last_requested_position : ℤ
  deriving DecidableEq, Repr

/-- Result of `TwitchChat.__getitem__`: either the returned message list, or a
marker that the call blocks on `data_loaded` (the out-of-range path). -/
inductive GetResult where
  | value (msgs : List Msg)
  | blocked
  deriving DecidableEq, Repr

/-- `TwitchChat.__getitem__`.  In-range lookups return
`messages[slice[0] : slice[1] + 1]` for `slice = time_slices.get(t, (0, -1))`
without blocking; out-of-range lookups record the position and block. -/
def getItem (st : ChatState) (t : ℤ) : Except PyErr GetResult := do
  let inRange ← rangeContains st.loaded_lo st.loaded_hi t
  if inRange then
    let sl := (smGet? st.time_slices t).getD (0, -1)
    pure (.value (pySliceGet st.messages sl.1 (sl.2 + 1)))
  else
    pure .blocked

/-- The scan of `TwitchChat._process_messages`: index of the first new message
that is `==` (object identity) to the last buffered message. -/
def findLastKnown (last : Msg) : List Msg → Option ℕ
  | [] => none
  | m :: rest =>
    if msgIs m last then some 0 else (findLastKnown last rest).map (· + 1)

/-- `TwitchChat._process_messages`: drop the leading portion of the page up to
and including the message that `==`-matches the last buffered message (keeping
everything when no match is found), append, and rebuild the indexes.  With a
non-empty buffer and an empty page, `messages[0]` raises `IndexError`. -/
def processMessages (st : ChatState) (page : List Msg) : Except PyErr ChatState := do
  let page ←
    match st.messages.getLast? with
    | none => pure page
    | some last =>
      match page.head? with
      | none => throw .indexError
      | some first =>
        if first.timestamp < last.timestamp then
          match findLastKnown last page with
          | some i => pure (page.drop (i + 1))
          | none => pure page
        else pure page
  let messages := st.messages ++ page
  let (slices, lo, hi) ← updateIndexes st.last_requested_position messages
  pure { st with messages := messages, time_slices := slices,
                 loaded_lo := lo, loaded_hi := .int hi }

/-- Minimum of a non-empty list of integers (`min(iterable)`). -/
def listMin (l : List ℤ) (d : ℤ) : ℤ := l.foldl min (l.headD d)

/-- `TwitchChat._get_next_timestamp_index`. -/
def getNextTimestampIndex (st : ChatState) (t : ℤ) : ℤ :=
  if st.time_slices.isEmpty then 0
  else
    match smGet? st.time_slices t with
    | some sl => sl.1
    | none =>
      let timesAhead := (smKeys st.time_slices).filter (fun k => t < k)
      if timesAhead.isEmpty then (st.messages.length : ℤ)
      else ((smGet? st.time_slices (listMin timesAhead 0)).getD (0, -1)).1

/-- `TwitchChat.KEEP_MESSAGES_BEHIND`. -/
def KEEP_MESSAGES_BEHIND : ℤ := 500

/-- `TwitchChat._clean_stored_messages`.  The backward-jump branch clears the
list and returns early (without rebuilding indexes); the other branch computes
`cutoff_index = min(first_index_of_next_timestamp - KEEP_MESSAGES_BEHIND, 0)`
and executes `del messages[:cutoff_index]` before rebuilding. -/
def cleanStoredMessages (st : ChatState) : Except PyErr ChatState := do
  if st.last_requested_position < st.loaded_lo then
    pure { st with messages := [] }
  else
    let firstIndexOfNext := getNextTimestampIndex st st.last_requested_position
    let cutoffIndex := min (firstIndexOfNext - KEEP_MESSAGES_BEHIND) 0
    let messages := pyDelFront st.messages cutoffIndex
    let (slices, lo, hi) ← updateIndexes st.last_requested_position messages
    pure { st with messages := messages, time_slices := slices,
                   loaded_lo := lo, loaded_hi := .int hi }

/-- `TwitchChat.LOAD_MORE_TRESHOLD`. -/
def LOAD_MORE_TRESHOLD : ℤ := 30

/-- The fetch-loop guard in `TwitchChat._run`:
`last_requested_position + LOAD_MORE_TRESHOLD >= loaded_range[1]`.  Comparing
an int against `float('inf')` is well-defined in Python and yields `False`, so
the sentinel never triggers a further `_load_more`. -/
def loadMoreCheck (lastRequestedPosition : ℤ) (hi : ExtInt) : Bool :=
  match hi with
  | .inf => false
  | .int h => decide (lastRequestedPosition + LOAD_MORE_TRESHOLD ≥ h)

/-- The condition variables of `TwitchChat`. -/
inductive ChatCond where
  | dataLoaded
  | needsLoading
  deriving DecidableEq, Repr

/-- The condition variables notified by `TwitchChat.stop` (it sets
`stop_requested` and then notifies `needs_loading`, and nothing else). -/
def stopNotifies : List ChatCond := [.needsLoading]

/-- The condition variables notified at the end of
`TwitchChat._process_messages` (`data_loaded.notify_all()`). -/
def processNotifies : List ChatCond := [.dataLoaded]

/-- The predicate a blocked `__getitem__` waits for on `data_loaded`:
`lambda: timestamp in range(self.loaded_range[0], self.loaded_range[1] + 1)`.
It reads only the loaded range; the stop flag is not consulted. -/
def getWaitPred (lo : ℤ) (hi : ExtInt) (stopFlag : Bool) (t : ℤ) :
    Except PyErr Bool :=
  rangeContains lo hi t

end MpvUtils

namespace Printer

/-- `TwitchChatPrinter.MIN_RESOLUTION`. -/
def MIN_RESOLUTION : ℚ := 1 / 20

/-- `TwitchChatPrinter.MPV_SYNC_INTERVAL`. -/
def MPV_SYNC_INTERVAL : ℚ := 5

/-- `TwitchChatPrinter.MAX_CORRECTION_WITHOUT_JUMP`. -/
def MAX_CORRECTION_WITHOUT_JUMP : ℚ := 10

/-- The printer's `last_sync` value: a rational, or the `float('-inf')` it is
initialised to (and reset to on unpause). -/
inductive ExtQ where
  | fin (q : ℚ)
  | negInf
  deriving DecidableEq, Repr

/-- `abs(self.current_timestamp - self.last_sync) >= MPV_SYNC_INTERVAL`;
against `-inf` the distance is `+inf`, which satisfies the bound. -/
def resyncDue (currentTimestamp : ℚ) (lastSync : ExtQ) : Bool :=
  match lastSync with
  | .negInf => true
  | .fin q => decide (|currentTimestamp - q| ≥ MPV_SYNC_INTERVAL)

/-- The printer state touched by the resync block of
`TwitchChatPrinter._run` (`next_messages` is the loop-local batch). -/
structure PState where
  current_timestamp : ℚ
  last_sync : ExtQ
  next_messages : List MpvUtils.Msg
  buffer : List MpvUtils.Msg
  next_request_timestamp : ℤ
  deriving DecidableEq, Repr

/-- The resync block at the top of `TwitchChatPrinter._run`, given the
authoritative playback position `auth` returned by
`mpv.command('get_property', 'playback-time')`: when a resync is due the local
estimate is overwritten, and when the correction exceeds
`MAX_CORRECTION_WITHOUT_JUMP` the pending batch and buffer are discarded and
`next_request_timestamp` is reset to `int(auth) - MAX_CORRECTION_WITHOUT_JUMP`. -/
def resyncStep (s : PState) (auth : ℚ) : PState :=
  if resyncDue s.current_timestamp s.last_sync then
    let s' := { s with current_timestamp := auth, last_sync := .fin auth }
    if |auth - s.current_timestamp| > MAX_CORRECTION_WITHOUT_JUMP then
      { s' with next_messages := [], buffer := [],
                next_request_timestamp := MpvUtils.pyInt auth - 10 }
    else s'
  else s

end Printer

namespace Ipc

/-- A well-formed MPV IPC response message: an `error` status string and an
optional `data` payload (`response.get('data')` yields `None` when absent).
The payload type is abstract. -/
structure MPVResponse (α : Type) where
  error : String
  data : Option α
  deriving DecidableEq, Repr

/-- The possible outcomes of `MPV.command`.  `timeoutErr` is never produced by
the source; it stands for the dedicated `Timeout` error the specification
describes, so that the claim about it can be stated. -/
inductive CmdOutcome (α : Type) where
  | ok (data : Option α)
  | mpvError (err : String)
  | typeError
  | timeoutErr
  deriving DecidableEq, Repr

/-- The result computation of `MPV.command` applied to the matching response,
or to `None` when `event.wait(5)` timed out (`EventWithMessage.wait` returns
`self.data`, which is still `None` then, and `response['error']` on `None`
raises `TypeError`). -/
def commandOutcome (resp : Option (MPVResponse α)) : CmdOutcome α :=
  match resp with
  | none => .typeError
  | some r => if r.error = "success" then .ok r.data else .mpvError r.error

/-- The listener (pending-waiter) table and the request-id counter of an
`MPV` instance. -/
structure ListenerState (β : Type) where
  request_id : ℕ
  listeners : List (ℕ × β)
  deriving Repr

/-- `del d[k]` on the listener dict. -/
def delKey (tbl : List (ℕ × β)) (k : ℕ) : List (ℕ × β) :=
  tbl.filter (fun p => ¬ p.1 = k)

/-- The waiter bookkeeping of `MPV.command`: allocate a fresh request id,
record the waiter, and in the `finally` block delete it again.  This is the
net effect on the table regardless of which exit path (return, `MPVError`,
timeout `TypeError`) was taken. -/
def commandListenerStep (st : ListenerState β) (ev : β) : ListenerState β :=
  { request_id := st.request_id + 1,
    listeners := delKey (st.listeners ++ [(st.request_id, ev)]) st.request_id }

/-- A parsed (or unparsable) line on the IPC stream. -/
inductive LineMsg where
  | response (requestId : ℕ) (error : String)
  | event (name : String)
  | other
  | malformed
  deriving DecidableEq, Repr

/-- One outcome of a `client.recv(1024)` attempt in
`MPV._connect_and_process`. -/
inductive NetEvent where
  | timeout
  | data (lines : List LineMsg)
  | sockError
  deriving DecidableEq, Repr

/-- The errors that can escape the read loop. -/
inductive TransportErr where
  | protocolDesync
  | transportLost
  deriving DecidableEq, Repr

/-- Outcome of one `_connect_and_process` cycle. -/
inductive ConnOutcome where
  | stopped
  | failed (e : TransportErr)
  | starved
  deriving DecidableEq, Repr

/-- Process the complete lines split out of the receive buffer.
`json.loads` on a malformed line raises (nothing catches it); well-formed
messages are dispatched and never raise. -/
def processLines : List LineMsg → Option TransportErr
  | [] => none
  | .malformed :: _ => some .protocolDesync
  | _ :: rest => processLines rest

/-- `MPV._connect_and_process` over a script of receive outcomes.  `stopAt`
counts the loop iterations until `stop_requested.is_set()` reads true (`0`
means the flag is already set).  A `socket.timeout` is caught and the loop
continues; any other socket error, and any malformed line, propagates out of
the method.  The loop returns normally only once the stop flag is set;
`starved` marks a script too short to decide. -/
def connectAndProcess : ℕ → List NetEvent → ConnOutcome
  | 0, _ => .stopped
  | _ + 1, [] => .starved
  | n + 1, ev :: rest =>
    match ev with
    | .timeout => connectAndProcess n rest
    | .sockError => .failed .transportLost
    | .data lines =>
      match processLines lines with
      | some e => .failed e
      | none => connectAndProcess n rest

/-- Final fate of the transport worker thread. -/
inductive WorkerResult where
  | exited
  | died (e : TransportErr)
  | hung
  deriving DecidableEq, Repr

/-- `MPV._run` (as executed under `MPV.run`'s try/except): the first
`_connect_and_process()` has no exception handler around it, so a failure
propagates out of `_run`, is logged by `run`, and the thread terminates.  A
normal return happens only with the stop flag set, so the
`while not self.stop_requested.is_set()` reconnect loop body never runs and
the worker exits — whether or not `reconnect` is enabled. -/
def runTransport (reconnect : Bool) (stopAt : ℕ) (events : List NetEvent) :
    WorkerResult :=
  match connectAndProcess stopAt events with
  | .failed e => .died e
  | .starved => .hung
  | .stopped => .exited

/-- The event-handler table `MPV.handlers`: a `defaultdict(list)` from event
name to handler tokens (handlers compare by identity). -/
abbrev Handlers := List (String × List ℕ)

/-- `defaultdict` read: missing keys yield `[]`. -/
def hGet (h : Handlers) (e : String) : List ℕ :=
  ((h.find? (fun p => p.1 = e)).map (fun p => p.2)).getD []

/-- Store a (possibly new) entry. -/
def hSet (h : Handlers) (e : String) (l : List ℕ) : Handlers :=
  if h.any (fun p => p.1 = e) then
    h.map (fun p => if p.1 = e then (e, l) else p)
  else h ++ [(e, l)]

/-- Python `list.remove(x)`: delete the first element `== x`, raising
`ValueError` when none is present (the list is left unmodified then). -/
def listRemove (l : List ℕ) (x : ℕ) : Except MpvUtils.PyErr (List ℕ) :=
  if x ∈ l then .ok (l.erase x) else .error .valueError

/-- `MPV.off`. -/
def off (h : Handlers) (e : String) (f : ℕ) : Except MpvUtils.PyErr Handlers := do
  let l ← listRemove (hGet h e) f
  pure (hSet h e l)

/-- The observer tables of an `MPV` instance: `observers` (a
`defaultdict(list)` from property name to observer tokens) and
`observer_ids` (property name ↦ subscription id). -/
structure ObserverState where
  observers : Handlers
  observer_ids : List (String × ℕ)
  deriving Repr

/-- `MPV.unobserve`: remove the observer (first `==` occurrence;
`ValueError` when absent), and when the property's list becomes empty delete
its subscription id and send `unobserve-property` with it (returned as
`some id`). -/
def unobserve (st : ObserverState) (prop : String) (f : ℕ) :
    Except MpvUtils.PyErr (ObserverState × Option ℕ) := do
  let l ← listRemove (hGet st.observers prop) f
  let observers := hSet st.observers prop l
  if l.isEmpty then
    match (st.observer_ids.find? (fun p => p.1 = prop)).map (fun p => p.2) with
    | none => throw .keyError
    | some oid =>
      pure (⟨observers, st.observer_ids.filter (fun p => ¬ p.1 = prop)⟩, some oid)
  else
    pure (⟨observers, st.observer_ids⟩, none)

end Ipc

/-! ## Theorems for the claims -/

section Claims

open MpvUtils Printer Ipc

/-- Reduction helper: binding a failed `Except` computation fails. -/
theorem except_error_bind {ε α β : Type} (e : ε) (f : α → Except ε β) :
    (Except.error e >>= f : Except ε β) = Except.error e := rfl

/-- Reduction helper: `throw` is `Except.error`. -/
theorem except_throw_def {ε α : Type} (e : ε) :
    (throw e : Except ε α) = Except.error e := rfl

/-- Reduction helper: mapping over a failed `Except` computation fails. -/
theorem except_error_map {ε α β : Type} (e : ε) (f : α → β) :
    (f <$> (Except.error e : Except ε α)) = Except.error e := rfl

/-- Reduction helper: binding a successful `Except` computation continues. -/
theorem except_ok_bind {ε α β : Type} (a : α) (f : α → Except ε β) :
    (Except.ok a >>= f : Except ε β) = f a := rfl

/-- Reduction helper: `pure` is `Except.ok`. -/
theorem except_pure_def {ε α : Type} (a : α) :
    (pure a : Except ε α) = Except.ok a := rfl

/-- **C10**: ingestion is not total on empty pages.  For every buffer state,
`_process_messages` applied to a page of zero comments raises instead of
acting as a no-op: with a non-empty buffer the duplicate-overlap check indexes
`messages[0]` of the empty page (`IndexError`); with an empty buffer the index
rebuild in `_update_indexes` reads the loop variable `i` after a
zero-iteration loop (`NameError`, raised before the `min` over the key set is
reached). -/
theorem c10_empty_page_raises (st : MpvUtils.ChatState) :
    MpvUtils.processMessages st [] =
      .error (if st.messages.isEmpty then PyErr.nameError else PyErr.indexError) := by
  obtain ⟨msgs, sl, lo, hi, lrp⟩ := st
  cases msgs with
  | nil =>
    simp [MpvUtils.processMessages, MpvUtils.updateIndexes, except_throw_def,
      except_error_bind, except_error_map]
  | cons m rest =>
    cases h : (m :: rest).getLast? with
    | none => simp at h
    | some last =>
      simp [MpvUtils.processMessages, h, except_throw_def, except_error_bind,
        except_error_map]

/-- **C4** (code bug): once `_load_more` installs the `float('inf')`
end-of-stream sentinel as `loaded_range[1]`, the containment check
`timestamp in range(lo, hi + 1)` in `__getitem__` does not treat the sentinel
as "greater than any real timestamp" — `range()` rejects the float bound, so
every subsequent `get` raises `TypeError` instead of succeeding.  (The fetch
loop's guard, a plain float comparison, does correctly never trigger a
further fetch.)  Evaluated at the failing input `loaded_range = (0, inf)`,
`get(50)`. -/
theorem c4_sentinel_breaks_containment :
    MpvUtils.rangeContains 0 .inf 50 = .error .typeError ∧
    MpvUtils.getItem ⟨[⟨0, 10⟩], [(10, 0, 0)], 0, .inf, 50⟩ 50 = .error .typeError ∧
    MpvUtils.loadMoreCheck 50 .inf = false :=
  ⟨rfl, rfl, rfl⟩

/-- **C6**: at a due resync the printer overwrites its local estimate with the
authoritative playback position; a correction exceeding
`MAX_CORRECTION_WITHOUT_JUMP` (10) discards the pending batch and the buffer
and resets `next_request_timestamp` to `int(auth) - 10`; a correction at or
below the threshold only corrects the estimate, flushing nothing. -/
theorem c6_resync_step (s : Printer.PState) (auth : ℚ)
    (hdue : Printer.resyncDue s.current_timestamp s.last_sync = true) :
    (Printer.resyncStep s auth).current_timestamp = auth ∧
    (Printer.resyncStep s auth).last_sync = .fin auth ∧
    (|auth - s.current_timestamp| > Printer.MAX_CORRECTION_WITHOUT_JUMP →
      (Printer.resyncStep s auth).next_messages = [] ∧
      (Printer.resyncStep s auth).buffer = [] ∧
      (Printer.resyncStep s auth).next_request_timestamp = MpvUtils.pyInt auth - 10) ∧
    (¬ |auth - s.current_timestamp| > Printer.MAX_CORRECTION_WITHOUT_JUMP →
      (Printer.resyncStep s auth).next_messages = s.next_messages ∧
      (Printer.resyncStep s auth).buffer = s.buffer ∧
      (Printer.resyncStep s auth).next_request_timestamp = s.next_request_timestamp) := by
  unfold Printer.resyncStep
  rw [hdue]
  by_cases hjump : |auth - s.current_timestamp| > Printer.MAX_CORRECTION_WITHOUT_JUMP
  · simp [hjump]
  · simp [hjump]

/-- Witness for C6: Scenario C (estimate 100.02, authoritative 100.9: estimate
corrected, no flush) and Scenario D (estimate 100.0, authoritative 250.0:
batch and buffer discarded, requested position reset to 240). -/
theorem c6_resync_step_witness :
    (Printer.resyncStep ⟨5001/50, .negInf, [⟨0, 10⟩], [⟨1, 20⟩], 7⟩ (1009/10)).current_timestamp
        = 1009/10 ∧
    (Printer.resyncStep ⟨5001/50, .negInf, [⟨0, 10⟩], [⟨1, 20⟩], 7⟩ (1009/10)).buffer
        = [⟨1, 20⟩] ∧
    (Printer.resyncStep ⟨100, .negInf, [⟨0, 10⟩], [⟨1, 20⟩], 7⟩ 250).buffer = [] ∧
    (Printer.resyncStep ⟨100, .negInf, [⟨0, 10⟩], [⟨1, 20⟩], 7⟩ 250).next_request_timestamp
        = 240 := by
  have hC := c6_resync_step ⟨5001/50, .negInf, [⟨0, 10⟩], [⟨1, 20⟩], 7⟩ (1009/10) rfl
  have hD := c6_resync_step ⟨100, .negInf, [⟨0, 10⟩], [⟨1, 20⟩], 7⟩ 250 rfl
  have hCsmall : ¬ |(1009/10 : ℚ) - 5001/50| > Printer.MAX_CORRECTION_WITHOUT_JUMP := by
    rw [not_lt, show (1009/10 : ℚ) - 5001/50 = 22/25 by norm_num,
      abs_of_nonneg (by norm_num)]
    norm_num [Printer.MAX_CORRECTION_WITHOUT_JUMP]
  have hDbig : |(250 : ℚ) - 100| > Printer.MAX_CORRECTION_WITHOUT_JUMP := by
    rw [show (250 : ℚ) - 100 = 150 by norm_num, abs_of_nonneg (by norm_num)]
    norm_num [Printer.MAX_CORRECTION_WITHOUT_JUMP]
  refine ⟨hC.1, (hC.2.2.2 hCsmall).2.1, (hD.2.2.1 hDbig).2.1, ?_⟩
  rw [(hD.2.2.1 hDbig).2.2]
  norm_num [MpvUtils.pyInt]

/-- Counterexample for **C1** as stated: when no response arrives within the
5-unit wait, `EventWithMessage.wait` returns `None` and
`response['error']` raises `TypeError` — the call does not fail with a
dedicated `Timeout` error. -/
theorem c1_timeout_is_typeerror :
    Ipc.commandOutcome (α := String) none = .typeError ∧
    Ipc.commandOutcome (α := String) none ≠ .timeoutErr :=
  ⟨rfl, by decide⟩

/-- **C1** (amended): a `call` whose matching response has `error: "success"`
returns exactly the response's `data` field; any other `error` value raises
`MPVError` carrying that string; when no response arrives within 5 units the
call fails with a `TypeError` (from subscripting the absent response), not a
dedicated `Timeout` error, and the connection is untouched; and on every exit
path the `finally` block removes the pending waiter, so the listener table is
exactly restored and repeated calls do not grow it. -/
theorem c1_command_roundtrip {α β : Type} (r : Ipc.MPVResponse α)
    (st : Ipc.ListenerState β) (ev : β)
    (hfresh : ∀ k ∈ st.listeners.map Prod.fst, k < st.request_id) :
    (r.error = "success" → Ipc.commandOutcome (some r) = .ok r.data) ∧
    (r.error ≠ "success" → Ipc.commandOutcome (some r) = .mpvError r.error) ∧
    Ipc.commandOutcome (α := α) none = .typeError ∧
    (Ipc.commandListenerStep st ev).listeners = st.listeners ∧
    (∀ k ∈ (Ipc.commandListenerStep st ev).listeners.map Prod.fst,
        k < (Ipc.commandListenerStep st ev).request_id) := by
  have htbl : (Ipc.commandListenerStep st ev).listeners = st.listeners := by
    unfold Ipc.commandListenerStep Ipc.delKey
    rw [List.filter_append]
    have h1 : st.listeners.filter (fun p => ¬ p.1 = st.request_id) = st.listeners := by
      apply List.filter_eq_self.mpr
      intro p hp
      have := hfresh p.1 (List.mem_map.mpr ⟨p, hp, rfl⟩)
      simp only [decide_eq_true_eq]
      omega
    have h2 : [(st.request_id, ev)].filter (fun p => ¬ p.1 = st.request_id) = [] := by
      simp
    rw [h1, h2, List.append_nil]
  refine ⟨?_, ?_, rfl, htbl, ?_⟩
  · intro h
    simp [Ipc.commandOutcome, h]
  · intro h
    simp [Ipc.commandOutcome, h]
  · intro k hk
    rw [htbl] at hk
    have := hfresh k hk
    simp only [Ipc.commandListenerStep]
    omega

/-- Witness for C1 (amended): Scenario B — request id 7, response
`{"request_id": 7, "error": "success", "data": "yes"}` yields `"yes"`, and
the waiter table (empty before the call) is empty again after it. -/
theorem c1_command_roundtrip_witness :
    Ipc.commandOutcome (some ⟨"success", some "yes"⟩) = CmdOutcome.ok (some "yes") ∧
    (Ipc.commandListenerStep (β := Unit) ⟨7, []⟩ ()).listeners = [] := by
  have h := c1_command_roundtrip (β := Unit) ⟨"success", (some "yes" : Option String)⟩
    ⟨7, []⟩ () (by simp)
  exact ⟨h.1 rfl, h.2.2.2.1⟩

/-- **C7** (code bug): with reconnection enabled, a malformed line or a
socket-level failure in the read loop is fatal to the transport worker.
`_run` has no exception handler around `_connect_and_process`, so the error
propagates, `run` logs it, and the thread terminates; the reconnect loop is
never reached (a normal return of `_connect_and_process` only happens once
the stop flag is already set, which also ends the loop).  Evaluated at the
failing inputs: first connection delivering one malformed line, and first
connection hitting a socket error. -/
theorem c7_read_loop_error_kills_worker :
    Ipc.runTransport true 5 [.data [.malformed]] = .died .protocolDesync ∧
    Ipc.runTransport true 5 [.sockError] = .died .transportLost ∧
    Ipc.connectAndProcess 5 [.data [.malformed]] = .failed .protocolDesync :=
  ⟨rfl, rfl, rfl⟩

/-- Counterexample for **C9** as stated: unsubscribing the same event handler
twice is not a safe no-op — with `handlers = {"pause": [h]}`, the first
`off` removes the handler and the second raises `ValueError`
(`list.remove` on a list not containing the element). -/
theorem c9_second_unsubscribe_raises :
    Ipc.off [("pause", [7])] "pause" 7 = .ok [("pause", [])] ∧
    Ipc.off [("pause", [])] "pause" 7 = .error .valueError :=
  ⟨rfl, rfl⟩

/-- Storing a key in a handler table and reading it back yields the stored
list. -/
theorem hGet_hSet (h : Ipc.Handlers) (e : String) (l : List ℕ) :
    Ipc.hGet (Ipc.hSet h e l) e = l := by
  induction h with
  | nil => simp [Ipc.hSet, Ipc.hGet]
  | cons p t ih =>
    by_cases hpe : p.1 = e
    · simp [Ipc.hSet, Ipc.hGet, List.any_cons, List.find?_cons, hpe]
    · have h1 : Ipc.hSet (p :: t) e l = p :: Ipc.hSet t e l := by
        unfold Ipc.hSet
        by_cases ht : t.any (fun q => decide (q.1 = e))
        · simp [List.any_cons, hpe, ht]
        · simp [List.any_cons, hpe, ht]
      rw [h1]
      have h2 : Ipc.hGet (p :: Ipc.hSet t e l) e = Ipc.hGet (Ipc.hSet t e l) e := by
        simp [Ipc.hGet, List.find?_cons, hpe]
      rw [h2, ih]

/-- **C9** (amended): invoking the returned unsubscribe twice removes the
handler exactly once; the second invocation is not a safe no-op — it raises
`ValueError` from `list.remove` on a list that no longer contains the handler
(leaving the tables unmodified rather than underflowing them).  This holds for
event handlers (`off`) and property observers (`unobserve`) alike. -/
theorem c9_unsubscribe_twice (h : Ipc.Handlers) (e : String) (f : ℕ)
    (hget : Ipc.hGet h e = [f])
    (os : Ipc.ObserverState) (p : String) (g oid : ℕ)
    (hobs : Ipc.hGet os.observers p = [g])
    (hoid : os.observer_ids.find? (fun q => q.1 = p) = some (p, oid)) :
    Ipc.off h e f = .ok (Ipc.hSet h e []) ∧
    Ipc.off (Ipc.hSet h e []) e f = .error .valueError ∧
    Ipc.unobserve os p g =
      .ok (⟨Ipc.hSet os.observers p [],
            os.observer_ids.filter (fun q => ¬ q.1 = p)⟩, some oid) ∧
    Ipc.unobserve ⟨Ipc.hSet os.observers p [], os.observer_ids⟩ p g =
      .error .valueError := by
  refine ⟨?_, ?_, ?_, ?_⟩
  · simp [Ipc.off, Ipc.listRemove, hget]
  · simp [Ipc.off, Ipc.listRemove, hGet_hSet, except_throw_def, except_error_bind]
  · simp [Ipc.unobserve, Ipc.listRemove, hobs, hoid, except_ok_bind,
      except_pure_def]
  · simp [Ipc.unobserve, Ipc.listRemove, hGet_hSet, except_throw_def,
      except_error_bind]

/-- Witness for C9 (amended): a concrete handler table and observer state. -/
theorem c9_unsubscribe_twice_witness :
    Ipc.off [("pause", [7])] "pause" 7 = .ok [("pause", [])] ∧
    Ipc.unobserve ⟨[("volume", [9])], [("volume", 4)]⟩ "volume" 9 =
      .ok (⟨[("volume", [])], []⟩, some 4) := by
  have h := c9_unsubscribe_twice [("pause", [7])] "pause" 7 rfl
    ⟨[("volume", [9])], [("volume", 4)]⟩ "volume" 9 4 rfl rfl
  exact ⟨h.1, h.2.2.1⟩

/-- Counterexample for **C8** as stated: `TwitchChat.stop` does not reach a
lookup blocked in `__getitem__`.  `stop` notifies only `needs_loading` (never
`data_loaded`, the condition the lookup waits on), and the lookup's wait
predicate still evaluates to false with the stop flag set (here: range
`[0, 10]`, requested second 50), so the blocked lookup is not unblocked. -/
theorem c8_stop_misses_lookup_wait :
    MpvUtils.ChatCond.dataLoaded ∉ MpvUtils.stopNotifies ∧
    MpvUtils.getWaitPred 0 (.int 10) true 50 = .ok false := by
  refine ⟨?_, rfl⟩
  decide

/-- **C8** (amended): the stop signal reaches only the fetch loop's wait.
`stop` sets the flag and notifies exactly `needs_loading`; a lookup blocked in
`__getitem__` waits on `data_loaded`, which only `_process_messages` notifies,
and its wait predicate depends solely on the loaded range — it ignores the
stop flag — so a blocked `get` is not released by `stop` and only wakes when
an ingestion extends the range to cover the requested second. -/
theorem c8_stop_only_wakes_fetch_loop :
    MpvUtils.stopNotifies = [MpvUtils.ChatCond.needsLoading] ∧
    MpvUtils.ChatCond.dataLoaded ∉ MpvUtils.stopNotifies ∧
    MpvUtils.processNotifies = [MpvUtils.ChatCond.dataLoaded] ∧
    (∀ (lo : ℤ) (hi : MpvUtils.ExtInt) (t : ℤ) (b b' : Bool),
      MpvUtils.getWaitPred lo hi b t = MpvUtils.getWaitPred lo hi b' t) := by
  refine ⟨rfl, by decide, rfl, fun lo hi t b b' => rfl⟩

/-- **C3** (code bug): the duplicate-leading-page scan of
`_process_messages` compares freshly constructed `TwitchMessage` objects with
`==`, which is object identity (`TwitchMessage` defines no `__eq__`), so the
scan never finds the last known message; all overlapping messages are kept and
the buffer is no longer timestamp-sorted.  Evaluated at the failing input:
buffer holding timestamps `[10, 20]`, page re-serving `[10, 20, 25]`. -/
theorem c3_dedup_never_matches :
    (MpvUtils.processMessages
        ⟨[⟨0, 10⟩, ⟨1, 20⟩], [(10, 0, 0), (20, 1, 1)], 10, .int 19, 10⟩
        [⟨2, 10⟩, ⟨3, 20⟩, ⟨4, 25⟩]).map
      (fun s => s.messages.map MpvUtils.Msg.timestamp) = .ok [10, 20, 10, 20, 25] ∧
    ¬ List.Chain' (· ≤ ·) [(10 : ℚ), 20, 10, 20, 25] := by
  refine ⟨rfl, ?_⟩
  intro hchain
  have h := (List.chain'_cons.mp (List.chain'_cons.mp hchain).2).1
  norm_num at h

set_option maxRecDepth 10000 in
/-- **C5** (code bug): ingestion performs no trim at all —
`_process_messages` never calls `_clean_stored_messages` — and the trim
function itself is wrong: its cutoff is `min(idx - 500, 0)` (instead of
`max`), so `del messages[:cutoff]` deletes nothing when `idx ≥ 500` and, when
`idx < 500` with more than 500 messages buffered, deletes messages at and
after the current position.  Evaluated at two failing inputs: (1) ingesting a
page while `last_requested_position` (5) lies behind `loaded_range.lo` (100)
leaves all 3 messages in place instead of discarding the buffer; (2) trimming
a 501-message buffer whose current position has index 0 deletes the message
at the current position (object 0) instead of keeping everything at or after
it. -/
theorem c5_trim_missing_and_cutoff_wrong :
    (MpvUtils.processMessages
        ⟨[⟨0, 100⟩, ⟨1, 101⟩], [(100, 0, 0), (101, 1, 1)], 100, .int 200, 5⟩
        [⟨2, 300⟩]).map (fun s => s.messages.length) = .ok 3 ∧
    (MpvUtils.cleanStoredMessages
        ⟨(List.range 501).map (fun i => ⟨i, 0⟩), [(0, 0, 500)], 0, .int 100, 0⟩).map
      (fun s => (s.messages.length, s.messages.head?.map MpvUtils.Msg.objId)) =
      .ok (500, some 1) :=
  ⟨rfl, rfl⟩

/-- Unfolding equation of `runEntries` on a non-empty list. -/
theorem runEntries_cons (i : ℕ) (m : MpvUtils.Msg) (rest : List MpvUtils.Msg) :
    MpvUtils.runEntries i (m :: rest) =
      (MpvUtils.pyInt m.timestamp, (i : ℤ), (i : ℤ) +
        (rest.takeWhile
          (fun x => MpvUtils.pyInt x.timestamp = MpvUtils.pyInt m.timestamp)).length) ::
      MpvUtils.runEntries
        (i + (rest.takeWhile
          (fun x => MpvUtils.pyInt x.timestamp = MpvUtils.pyInt m.timestamp)).length + 1)
        (rest.dropWhile
          (fun x => MpvUtils.pyInt x.timestamp = MpvUtils.pyInt m.timestamp)) := by
  rw [MpvUtils.runEntries]

/-- Messages whose integer timestamp equals the current run's timestamp do
not trigger a dict write in the `_update_indexes` loop; the loop just
advances the enumeration index across them. -/
theorem buildSlicesLoop_skip_run (run : List MpvUtils.Msg) :
    ∀ (rest : List MpvUtils.Msg) (j : ℕ) (s c : ℤ) (acc : MpvUtils.SliceMap),
    (∀ x ∈ run, MpvUtils.pyInt x.timestamp = c) →
    MpvUtils.buildSlicesLoop (run ++ rest) j s c acc =
      MpvUtils.buildSlicesLoop rest (j + run.length) s c acc := by
  induction run with
  | nil => intro rest j s c acc _; simp [MpvUtils.buildSlicesLoop]
  | cons x xs ih =>
    intro rest j s c acc h
    have hx : MpvUtils.pyInt x.timestamp = c := h x (List.mem_cons_self x xs)
    have h1 : MpvUtils.buildSlicesLoop (x :: (xs ++ rest)) j s c acc =
        MpvUtils.buildSlicesLoop (xs ++ rest) (j + 1) s c acc := by
      simp [MpvUtils.buildSlicesLoop, hx]
    rw [List.cons_append, h1,
      ih rest (j + 1) s c acc (fun y hy => h y (List.mem_cons_of_mem x hy))]
    congr 1
    simp only [List.length_cons]
    omega

/-- Writing an absent key into the slice dict appends it. -/
theorem smSet_append (acc : MpvUtils.SliceMap) (k : ℤ) (v : ℤ × ℤ)
    (h : ∀ p ∈ acc, p.1 ≠ k) :
    MpvUtils.smSet acc k v = acc ++ [(k, v)] := by
  have hany : acc.any (fun p => p.1 = k) = false := by
    rw [List.any_eq_false]
    intro p hp
    simpa using h p hp
  simp [MpvUtils.smSet, hany]

/-- In a run-sorted list, everything left after dropping the leading run of
the head's integer timestamp has a strictly larger integer timestamp. -/
theorem dropWhile_run_gt (m : MpvUtils.Msg) (rest : List MpvUtils.Msg)
    (hsort : List.Pairwise
      (fun a b => MpvUtils.pyInt a.timestamp ≤ MpvUtils.pyInt b.timestamp)
      (m :: rest)) :
    ∀ x ∈ rest.dropWhile
        (fun y => MpvUtils.pyInt y.timestamp = MpvUtils.pyInt m.timestamp),
      MpvUtils.pyInt m.timestamp < MpvUtils.pyInt x.timestamp := by
  intro x hx
  cases hdw : rest.dropWhile
      (fun y => decide (MpvUtils.pyInt y.timestamp = MpvUtils.pyInt m.timestamp)) with
  | nil =>
    rw [hdw] at hx
    cases hx
  | cons h tl =>
    have hhead := List.head?_dropWhile_not
      (fun y => decide (MpvUtils.pyInt y.timestamp = MpvUtils.pyInt m.timestamp)) rest
    rw [hdw] at hhead
    simp only [List.head?_cons, decide_eq_false_iff_not] at hhead
    have hsub : List.Sublist (h :: tl) rest := by
      rw [← hdw]
      exact List.dropWhile_sublist _
    have hmem_h : h ∈ rest := hsub.subset (List.mem_cons_self h tl)
    have hle_h : MpvUtils.pyInt m.timestamp ≤ MpvUtils.pyInt h.timestamp :=
      (List.pairwise_cons.mp hsort).1 h hmem_h
    have hlt_h : MpvUtils.pyInt m.timestamp < MpvUtils.pyInt h.timestamp :=
      lt_of_le_of_ne hle_h (fun heq => hhead heq.symm)
    rw [hdw] at hx
    rcases List.mem_cons.mp hx with hx | hx
    · exact hx ▸ hlt_h
    · have hpair := (List.pairwise_cons.mp hsort).2.sublist hsub
      exact lt_of_lt_of_le hlt_h ((List.pairwise_cons.mp hpair).1 x hx)

/-- The `_update_indexes` loop, together with the dict write that follows it,
produces on a run-sorted message list (all timestamps strictly beyond the
current run's) exactly: the accumulator, the entry closing the open run, and
the closed-form run entries of the list. -/
theorem buildSlices_run :
    ∀ (n : ℕ) (msgs : List MpvUtils.Msg) (i : ℕ) (s c : ℤ)
      (acc : MpvUtils.SliceMap),
    msgs.length ≤ n →
    List.Pairwise
      (fun a b => MpvUtils.pyInt a.timestamp ≤ MpvUtils.pyInt b.timestamp) msgs →
    (∀ x ∈ msgs, c < MpvUtils.pyInt x.timestamp) →
    (∀ p ∈ acc, p.1 < c) →
    MpvUtils.smSet (MpvUtils.buildSlicesLoop msgs i s c acc).1
        (MpvUtils.buildSlicesLoop msgs i s c acc).2.2
        ((MpvUtils.buildSlicesLoop msgs i s c acc).2.1,
          ((i : ℤ) + msgs.length) - 1) =
      acc ++ (c, s, (i : ℤ) - 1) :: MpvUtils.runEntries i msgs := by
  intro n
  induction n with
  | zero =>
    intro msgs i s c acc hlen _ _ hacc
    have hnil : msgs = [] := List.length_eq_zero.mp (Nat.le_zero.mp hlen)
    subst hnil
    simp only [MpvUtils.buildSlicesLoop, MpvUtils.runEntries, List.length_nil,
      Nat.cast_zero, add_zero]
    rw [smSet_append acc c (s, (i : ℤ) - 1) (fun p hp => ne_of_lt (hacc p hp))]
  | succ n ih =>
    intro msgs i s c acc hlen hsort hgt hacc
    match msgs with
    | [] =>
      simp only [MpvUtils.buildSlicesLoop, MpvUtils.runEntries, List.length_nil,
        Nat.cast_zero, add_zero]
      rw [smSet_append acc c (s, (i : ℤ) - 1) (fun p hp => ne_of_lt (hacc p hp))]
    | m :: rest =>
      have ht0 : c < MpvUtils.pyInt m.timestamp := hgt m (List.mem_cons_self m rest)
      have hsplit :
          rest.takeWhile
              (fun x => MpvUtils.pyInt x.timestamp = MpvUtils.pyInt m.timestamp) ++
            rest.dropWhile
              (fun x => MpvUtils.pyInt x.timestamp = MpvUtils.pyInt m.timestamp) =
            rest := List.takeWhile_append_dropWhile _ rest
      have hrun_eq : ∀ x ∈ rest.takeWhile
          (fun x => MpvUtils.pyInt x.timestamp = MpvUtils.pyInt m.timestamp),
          MpvUtils.pyInt x.timestamp = MpvUtils.pyInt m.timestamp := by
        intro x hx
        simpa using List.mem_takeWhile_imp hx
      have hstep : MpvUtils.buildSlicesLoop (m :: rest) i s c acc =
          MpvUtils.buildSlicesLoop
            (rest.dropWhile
              (fun x => MpvUtils.pyInt x.timestamp = MpvUtils.pyInt m.timestamp))
            (i + (rest.takeWhile
              (fun x => MpvUtils.pyInt x.timestamp = MpvUtils.pyInt m.timestamp)).length
              + 1)
            (i : ℤ) (MpvUtils.pyInt m.timestamp)
            (MpvUtils.smSet acc c (s, (i : ℤ) - 1)) := by
        have h1 : MpvUtils.buildSlicesLoop (m :: rest) i s c acc =
            MpvUtils.buildSlicesLoop rest (i + 1) (i : ℤ)
              (MpvUtils.pyInt m.timestamp)
              (MpvUtils.smSet acc c (s, (i : ℤ) - 1)) := by
          simp only [MpvUtils.buildSlicesLoop]
          rw [if_pos (ne_of_gt ht0)]
        rw [h1]
        conv_lhs => rw [← hsplit]
        rw [buildSlicesLoop_skip_run _ _ _ _ _ _ hrun_eq]
        congr 1
        omega
      have hlen' : rest.length ≤ n := by
        simp only [List.length_cons] at hlen
        omega
      have hlen_rest : rest.length =
          (rest.takeWhile
            (fun x => MpvUtils.pyInt x.timestamp = MpvUtils.pyInt m.timestamp)).length +
          (rest.dropWhile
            (fun x => MpvUtils.pyInt x.timestamp = MpvUtils.pyInt m.timestamp)).length := by
        conv_lhs => rw [← hsplit]
        rw [List.length_append]
      have hsort' : List.Pairwise
          (fun a b => MpvUtils.pyInt a.timestamp ≤ MpvUtils.pyInt b.timestamp)
          (rest.dropWhile
            (fun x => MpvUtils.pyInt x.timestamp = MpvUtils.pyInt m.timestamp)) :=
        (List.pairwise_cons.mp hsort).2.sublist (List.dropWhile_sublist _)
      have hacc2 : ∀ p ∈ MpvUtils.smSet acc c (s, (i : ℤ) - 1),
          p.1 < MpvUtils.pyInt m.timestamp := by
        rw [smSet_append acc c _ (fun p hp => ne_of_lt (hacc p hp))]
        intro p hp
        rcases List.mem_append.mp hp with hp | hp
        · exact lt_trans (hacc p hp) ht0
        · simp only [List.mem_singleton] at hp
          rw [hp]
          exact ht0
      have hIH := ih
        (rest.dropWhile
          (fun x => MpvUtils.pyInt x.timestamp = MpvUtils.pyInt m.timestamp))
        (i + (rest.takeWhile
          (fun x => MpvUtils.pyInt x.timestamp = MpvUtils.pyInt m.timestamp)).length + 1)
        (i : ℤ) (MpvUtils.pyInt m.timestamp)
        (MpvUtils.smSet acc c (s, (i : ℤ) - 1))
        (le_trans (List.dropWhile_sublist _).length_le hlen')
        hsort' (dropWhile_run_gt m rest hsort) hacc2
      have hidx2 : (i : ℤ) + ((m :: rest).length : ℤ) - 1 =
          ((i + (rest.takeWhile
            (fun x => MpvUtils.pyInt x.timestamp = MpvUtils.pyInt m.timestamp)).length
            + 1 : ℕ) : ℤ) +
          ((rest.dropWhile
            (fun x => MpvUtils.pyInt x.timestamp = MpvUtils.pyInt m.timestamp)).length : ℤ)
          - 1 := by
        simp only [List.length_cons]
        push_cast
        omega
      rw [hstep, hidx2, hIH,
        smSet_append acc c _ (fun p hp => ne_of_lt (hacc p hp)),
        runEntries_cons]
      have hidx3 : ((i + (rest.takeWhile
          (fun x => MpvUtils.pyInt x.timestamp = MpvUtils.pyInt m.timestamp)).length
          + 1 : ℕ) : ℤ) - 1 =
          (i : ℤ) + ((rest.takeWhile
            (fun x => MpvUtils.pyInt x.timestamp = MpvUtils.pyInt m.timestamp)).length : ℤ) := by
        push_cast
        ring
      rw [hidx3]
      simp

/-- Every key of the run-entry map is the integer timestamp of some listed
message. -/
theorem runEntries_key_mem :
    ∀ (n : ℕ) (msgs : List MpvUtils.Msg) (i : ℕ) (key : ℤ),
    msgs.length ≤ n →
    key ∈ MpvUtils.smKeys (MpvUtils.runEntries i msgs) →
    ∃ x ∈ msgs, MpvUtils.pyInt x.timestamp = key := by
  intro n
  induction n with
  | zero =>
    intro msgs i key hlen hmem
    have hnil : msgs = [] := List.length_eq_zero.mp (Nat.le_zero.mp hlen)
    subst hnil
    simp [MpvUtils.runEntries, MpvUtils.smKeys] at hmem
  | succ n ih =>
    intro msgs i key hlen hmem
    match msgs with
    | [] => simp [MpvUtils.runEntries, MpvUtils.smKeys] at hmem
    | m :: rest =>
      rw [runEntries_cons] at hmem
      simp only [MpvUtils.smKeys, List.map_cons, List.mem_cons] at hmem
      rcases hmem with h | h
      · exact ⟨m, List.mem_cons_self m rest, h.symm⟩
      · have hlen' : (rest.dropWhile
            (fun x => MpvUtils.pyInt x.timestamp = MpvUtils.pyInt m.timestamp)).length
            ≤ n := by
          have hd := (List.dropWhile_sublist (l := rest)
            (fun x => decide
              (MpvUtils.pyInt x.timestamp = MpvUtils.pyInt m.timestamp))).length_le
          simp only [List.length_cons] at hlen
          omega
        obtain ⟨x, hx, hxe⟩ := ih _ _ key hlen' h
        exact ⟨x, List.mem_cons_of_mem m ((List.dropWhile_sublist _).subset hx), hxe⟩

/-- Conversely, the integer timestamp of every listed message is a key of the
run-entry map. -/
theorem runEntries_key_complete :
    ∀ (n : ℕ) (msgs : List MpvUtils.Msg) (i : ℕ) (x : MpvUtils.Msg),
    msgs.length ≤ n → x ∈ msgs →
    MpvUtils.pyInt x.timestamp ∈ MpvUtils.smKeys (MpvUtils.runEntries i msgs) := by
  intro n
  induction n with
  | zero =>
    intro msgs i x hlen hx
    have hnil : msgs = [] := List.length_eq_zero.mp (Nat.le_zero.mp hlen)
    subst hnil
    cases hx
  | succ n ih =>
    intro msgs i x hlen hx
    match msgs with
    | [] => cases hx
    | m :: rest =>
      rw [runEntries_cons]
      simp only [MpvUtils.smKeys, List.map_cons, List.mem_cons]
      rcases List.mem_cons.mp hx with hx | hx
      · left
        rw [hx]
      · have hsplit := List.takeWhile_append_dropWhile
          (fun y => decide (MpvUtils.pyInt y.timestamp = MpvUtils.pyInt m.timestamp))
          rest
        rw [← hsplit] at hx
        rcases List.mem_append.mp hx with hx | hx
        · left
          simpa using List.mem_takeWhile_imp hx
        · right
          have hlen' : (rest.dropWhile
              (fun y => MpvUtils.pyInt y.timestamp = MpvUtils.pyInt m.timestamp)).length
              ≤ n := by
            have hd := (List.dropWhile_sublist (l := rest)
              (fun y => decide
                (MpvUtils.pyInt y.timestamp = MpvUtils.pyInt m.timestamp))).length_le
            simp only [List.length_cons] at hlen
            omega
          exact ih _ _ x hlen' hx

/-- `dict.get` on a non-empty association list. -/
theorem smGet?_cons (k : ℤ) (v : ℤ × ℤ) (rest : MpvUtils.SliceMap) (t : ℤ) :
    MpvUtils.smGet? ((k, v) :: rest) t =
      if k = t then some v else MpvUtils.smGet? rest t := by
  simp only [MpvUtils.smGet?, List.find?_cons]
  by_cases h : k = t
  · simp [h]
  · simp [h]

/-- Looking a timestamp up in the run-entry map of a run-sorted list yields
the absolute index range of exactly the messages with that integer
timestamp. -/
theorem runEntries_get_spec :
    ∀ (n : ℕ) (msgs : List MpvUtils.Msg) (i : ℕ) (t s e : ℤ),
    msgs.length ≤ n →
    List.Pairwise
      (fun a b => MpvUtils.pyInt a.timestamp ≤ MpvUtils.pyInt b.timestamp) msgs →
    MpvUtils.smGet? (MpvUtils.runEntries i msgs) t = some (s, e) →
    ∃ a b : ℕ, s = (i : ℤ) + a ∧ e = (i : ℤ) + b ∧ a ≤ b ∧ b < msgs.length ∧
      (msgs.drop a).take (b + 1 - a) =
        msgs.filter (fun x => MpvUtils.pyInt x.timestamp = t) := by
  intro n
  induction n with
  | zero =>
    intro msgs i t s e hlen _ hget
    have hnil : msgs = [] := List.length_eq_zero.mp (Nat.le_zero.mp hlen)
    subst hnil
    simp [MpvUtils.runEntries, MpvUtils.smGet?] at hget
  | succ n ih =>
    intro msgs i t s e hlen hsort hget
    match msgs with
    | [] => simp [MpvUtils.runEntries, MpvUtils.smGet?] at hget
    | m :: rest =>
      rw [runEntries_cons] at hget
      by_cases hteq : MpvUtils.pyInt m.timestamp = t
      · -- the head entry matches: the whole leading run is the answer
        rw [smGet?_cons, if_pos hteq] at hget
        simp only [Option.some.injEq, Prod.mk.injEq] at hget
        obtain ⟨hs, he⟩ := hget
        refine ⟨0, (rest.takeWhile
          (fun x => MpvUtils.pyInt x.timestamp = MpvUtils.pyInt m.timestamp)).length,
          by simpa using hs.symm, by rw [← he], Nat.zero_le _, ?_, ?_⟩
        · simp only [List.length_cons]
          exact Nat.lt_succ_of_le (List.takeWhile_sublist _).length_le
        · have htake : rest.take (rest.takeWhile
              (fun x => MpvUtils.pyInt x.timestamp = MpvUtils.pyInt m.timestamp)).length =
              rest.takeWhile
                (fun x => MpvUtils.pyInt x.timestamp = MpvUtils.pyInt m.timestamp) :=
            (List.prefix_iff_eq_take.mp (List.takeWhile_prefix _)).symm
          have hsplit := List.takeWhile_append_dropWhile
            (fun x => decide (MpvUtils.pyInt x.timestamp = MpvUtils.pyInt m.timestamp))
            rest
          have hfilter_run : (rest.takeWhile
              (fun x => MpvUtils.pyInt x.timestamp = MpvUtils.pyInt m.timestamp)).filter
              (fun x => MpvUtils.pyInt x.timestamp = t) =
              rest.takeWhile
                (fun x => MpvUtils.pyInt x.timestamp = MpvUtils.pyInt m.timestamp) := by
            apply List.filter_eq_self.mpr
            intro y hy
            have := List.mem_takeWhile_imp hy
            simp only [decide_eq_true_eq] at this
            simp [this, hteq]
          have hfilter_rest : (rest.dropWhile
              (fun x => MpvUtils.pyInt x.timestamp = MpvUtils.pyInt m.timestamp)).filter
              (fun x => MpvUtils.pyInt x.timestamp = t) = [] := by
            apply List.filter_eq_nil_iff.mpr
            intro y hy
            have := dropWhile_run_gt m rest hsort y hy
            simp only [decide_eq_true_eq]
            omega
          simp only [List.drop_zero, Nat.sub_zero, List.take_succ_cons, List.filter_cons,
            decide_eq_true_eq]
          rw [if_pos hteq, htake]
          conv_rhs => rw [← hsplit]
          rw [List.filter_append, hfilter_run, hfilter_rest, List.append_nil]
      · -- the head entry misses: recurse into the tail runs
        rw [smGet?_cons, if_neg hteq] at hget
        have hget' : MpvUtils.smGet?
            (MpvUtils.runEntries
              (i + (rest.takeWhile
                (fun x => MpvUtils.pyInt x.timestamp = MpvUtils.pyInt m.timestamp)).length
                + 1)
              (rest.dropWhile
                (fun x => MpvUtils.pyInt x.timestamp = MpvUtils.pyInt m.timestamp))) t =
            some (s, e) := hget
        have hsplit := List.takeWhile_append_dropWhile
          (fun x => decide (MpvUtils.pyInt x.timestamp = MpvUtils.pyInt m.timestamp))
          rest
        have hlen_rest : rest.length =
            (rest.takeWhile
              (fun x => MpvUtils.pyInt x.timestamp = MpvUtils.pyInt m.timestamp)).length +
            (rest.dropWhile
              (fun x => MpvUtils.pyInt x.timestamp = MpvUtils.pyInt m.timestamp)).length := by
          conv_lhs => rw [← hsplit]
          rw [List.length_append]
        have hlen' : (rest.dropWhile
            (fun x => MpvUtils.pyInt x.timestamp = MpvUtils.pyInt m.timestamp)).length
            ≤ n := by
          simp only [List.length_cons] at hlen
          omega
        have hsort' : List.Pairwise
            (fun a b => MpvUtils.pyInt a.timestamp ≤ MpvUtils.pyInt b.timestamp)
            (rest.dropWhile
              (fun x => MpvUtils.pyInt x.timestamp = MpvUtils.pyInt m.timestamp)) :=
          (List.pairwise_cons.mp hsort).2.sublist (List.dropWhile_sublist _)
        obtain ⟨a', b', hs, he, hab, hblen, hseg⟩ := ih _ _ t s e hlen' hsort' hget'
        set K := (rest.takeWhile
          (fun x => MpvUtils.pyInt x.timestamp = MpvUtils.pyInt m.timestamp)).length
          with hKdef
        refine ⟨K + 1 + a', K + 1 + b', ?_, ?_, by omega, ?_, ?_⟩
        · rw [hs]; push_cast; ring
        · rw [he]; push_cast; ring
        · simp only [List.length_cons]
          omega
        · have harith : K + 1 + b' + 1 - (K + 1 + a') = b' + 1 - a' := by omega
          have hdrop : (m :: rest).drop (K + 1 + a') =
              (rest.dropWhile
                (fun x => MpvUtils.pyInt x.timestamp = MpvUtils.pyInt m.timestamp)).drop
                a' := by
            have h1 : K + 1 + a' = (K + a') + 1 := by omega
            rw [h1, List.drop_succ_cons, ← List.drop_drop]
            congr 1
            conv_lhs => rw [← hsplit]
            exact List.drop_left _ _
          have hfilter : (m :: rest).filter
              (fun x => MpvUtils.pyInt x.timestamp = t) =
              (rest.dropWhile
                (fun x => MpvUtils.pyInt x.timestamp = MpvUtils.pyInt m.timestamp)).filter
                (fun x => MpvUtils.pyInt x.timestamp = t) := by
            rw [List.filter_cons, if_neg (by simpa using hteq)]
            conv_lhs => rw [← hsplit]
            rw [List.filter_append]
            have hrun0 : (rest.takeWhile
                (fun x => MpvUtils.pyInt x.timestamp = MpvUtils.pyInt m.timestamp)).filter
                (fun x => MpvUtils.pyInt x.timestamp = t) = [] := by
              apply List.filter_eq_nil_iff.mpr
              intro y hy
              have := List.mem_takeWhile_imp hy
              simp only [decide_eq_true_eq] at this ⊢
              rw [this]
              exact hteq
            rw [hrun0, List.nil_append]
          rw [harith, hdrop, hfilter]
          exact hseg

/-- On a non-empty run-sorted message list with non-negative integer
timestamps, `_update_indexes` succeeds; the rebuilt `time_slices` is exactly
the closed-form run-entry map, the new lower bound is the `min`-fold of
`last_requested_position` with the keys, and the upper bound is the maximal
key minus one. -/
theorem updateIndexes_runEntries (msgs : List MpvUtils.Msg) (lrp : ℤ)
    (hsort : List.Pairwise
      (fun a b => MpvUtils.pyInt a.timestamp ≤ MpvUtils.pyInt b.timestamp) msgs)
    (hpos : ∀ x ∈ msgs, 0 ≤ MpvUtils.pyInt x.timestamp)
    (hne : msgs ≠ []) :
    MpvUtils.updateIndexes lrp msgs =
      .ok (MpvUtils.runEntries 0 msgs,
        (MpvUtils.smKeys (MpvUtils.runEntries 0 msgs)).foldl min lrp,
        ((MpvUtils.smKeys (MpvUtils.runEntries 0 msgs)).foldl max
          ((MpvUtils.smKeys (MpvUtils.runEntries 0 msgs)).headD 0)) - 1) := by
  obtain ⟨m, rest, rfl⟩ : ∃ m rest, msgs = m :: rest := by
    cases msgs with
    | nil => exact absurd rfl hne
    | cons m rest => exact ⟨m, rest, rfl⟩
  have hF := buildSlices_run (m :: rest).length (m :: rest) 0 (-1) (-1) [] le_rfl
    hsort (fun x hx => lt_of_lt_of_le (by norm_num) (hpos x hx))
    (fun p hp => absurd hp (List.not_mem_nil p))
  rcases hbsl : MpvUtils.buildSlicesLoop (m :: rest) 0 (-1) (-1) [] with ⟨acc0, s0, c0⟩
  rw [hbsl] at hF
  simp only [List.nil_append, Nat.cast_zero, zero_add, zero_sub] at hF
  have hdel : MpvUtils.smDel ((-1, -1, -1) :: MpvUtils.runEntries 0 (m :: rest))
      (-1) = .ok (MpvUtils.runEntries 0 (m :: rest)) := by
    simp only [MpvUtils.smDel, List.any_cons, List.filter_cons]
    norm_num
    intro a a1 b hmem
    have hkey : a ∈ MpvUtils.smKeys (MpvUtils.runEntries 0 (m :: rest)) := by
      have := List.mem_map_of_mem (fun p => p.1) hmem
      simpa [MpvUtils.smKeys] using this
    obtain ⟨x, hx, hxe⟩ := runEntries_key_mem (m :: rest).length (m :: rest) 0 a
      le_rfl hkey
    have := hpos x hx
    omega
  have hkeys_ne : (MpvUtils.smKeys (MpvUtils.runEntries 0 (m :: rest))).isEmpty
      = false := by
    rw [runEntries_cons]
    simp [MpvUtils.smKeys]
  simp only [MpvUtils.updateIndexes, List.isEmpty_cons, hbsl, if_neg, Bool.false_eq_true,
    except_pure_def, except_ok_bind, except_error_bind, except_throw_def, ite_false]
  rw [hF, hdel]
  simp only [except_ok_bind, hkeys_ne, Bool.false_eq_true, ite_false, except_pure_def]

/-- **C2**: for every integer second inside the loaded range just rebuilt by
`_update_indexes` over a run-sorted buffer, `__getitem__` returns — without
blocking and without consulting the next-greater fallback — exactly the
messages whose floored timestamp equals that second, and in particular the
empty list when no message exists at that second. -/
theorem c2_get_in_range (msgs : List MpvUtils.Msg) (lrp t lo hi : ℤ)
    (slices : MpvUtils.SliceMap)
    (hsort : List.Pairwise
      (fun a b => MpvUtils.pyInt a.timestamp ≤ MpvUtils.pyInt b.timestamp) msgs)
    (hpos : ∀ x ∈ msgs, 0 ≤ MpvUtils.pyInt x.timestamp)
    (hupd : MpvUtils.updateIndexes lrp msgs = .ok (slices, lo, hi))
    (hlo : lo ≤ t) (hhi : t ≤ hi) :
    MpvUtils.getItem ⟨msgs, slices, lo, .int hi, lrp⟩ t =
      .ok (.value (msgs.filter (fun x => MpvUtils.pyInt x.timestamp = t))) := by
  have hne : msgs ≠ [] := by
    intro h
    subst h
    simp [MpvUtils.updateIndexes, except_throw_def, except_error_bind,
      except_error_map] at hupd
  have hspec := updateIndexes_runEntries msgs lrp hsort hpos hne
  rw [hspec] at hupd
  have hinj := Except.ok.inj hupd
  simp only [Prod.mk.injEq] at hinj
  obtain ⟨hslices, -, -⟩ := hinj
  subst hslices
  have hrange : (decide (lo ≤ t ∧ t ≤ hi)) = true := by
    simp [hlo, hhi]
  simp only [MpvUtils.getItem, MpvUtils.rangeContains, except_ok_bind, hrange,
    ite_true, except_pure_def]
  cases hget : MpvUtils.smGet? (MpvUtils.runEntries 0 msgs) t with
  | none =>
    simp only [hget, Option.getD_none]
    have hslice : MpvUtils.pySliceGet msgs (0 : ℤ) ((-1 : ℤ) + 1) = [] := by
      norm_num [MpvUtils.pySliceGet, MpvUtils.pyIdx]
    have hfilter : msgs.filter (fun x => MpvUtils.pyInt x.timestamp = t) = [] := by
      apply List.filter_eq_nil_iff.mpr
      intro x hx
      simp only [decide_eq_true_eq]
      intro hxt
      have hkey := runEntries_key_complete msgs.length msgs 0 x le_rfl hx
      rw [hxt] at hkey
      have hnone : (MpvUtils.runEntries 0 msgs).find?
          (fun p => decide (p.1 = t)) = none := by
        simpa [MpvUtils.smGet?] using hget
      rw [List.find?_eq_none] at hnone
      obtain ⟨p, hp, hp1⟩ := List.mem_map.mp hkey
      have := hnone p hp
      simp [hp1] at this
    rw [hslice, hfilter]
  | some sl =>
    obtain ⟨s, e⟩ := sl
    obtain ⟨a, b, hs, he, hab, hblen, hseg⟩ :=
      runEntries_get_spec msgs.length msgs 0 t s e le_rfl hsort hget
    simp only [Nat.cast_zero, zero_add] at hs he
    simp only [hget, Option.getD_some]
    have hsliceeq : MpvUtils.pySliceGet msgs s (e + 1) =
        (msgs.drop a).take (b + 1 - a) := by
      subst hs he
      have hb1 : ((b : ℤ) + 1) = ((b + 1 : ℕ) : ℤ) := by push_cast; ring
      simp only [MpvUtils.pySliceGet, MpvUtils.pyIdx, hb1]
      rw [if_pos (by positivity), if_pos (by positivity)]
      rw [Int.toNat_natCast, Int.toNat_natCast]
      have hminb : min (b + 1) msgs.length = b + 1 :=
        Nat.min_eq_left (Nat.succ_le_of_lt hblen)
      have hmina : min a msgs.length = a :=
        Nat.min_eq_left (le_of_lt (lt_of_le_of_lt hab hblen))
      rw [hminb, hmina]
      have haext : a + (b + 1 - a) = b + 1 := by omega
      rw [← haext, ← List.take_drop]
      rw [haext]
    rw [hsliceeq, hseg]

/-- Witness for C2: Scenario A — buffer holding messages at seconds
10, 10, 11 and 13, with `loaded_range = (10, 12)`
as rebuilt by `_update_indexes`; `get(12)` returns the empty list without
blocking. -/
theorem c2_get_in_range_witness :
    MpvUtils.getItem
      ⟨[⟨0, 10⟩, ⟨1, 10⟩, ⟨2, 11⟩, ⟨3, 13⟩],
        [(10, 0, 1), (11, 2, 2), (13, 3, 3)], 10, .int 12, 10⟩ 12 =
      .ok (.value []) := by
  have h := c2_get_in_range [⟨0, 10⟩, ⟨1, 10⟩, ⟨2, 11⟩, ⟨3, 13⟩] 10 12 10 12
    [(10, 0, 1), (11, 2, 2), (13, 3, 3)]
    (by decide) (by decide) (by rfl) (by decide) (by decide)
  have hfil : ([⟨0, 10⟩, ⟨1, 10⟩, ⟨2, 11⟩, ⟨3, 13⟩] : List MpvUtils.Msg).filter
      (fun x => MpvUtils.pyInt x.timestamp = 12) = [] := by decide
  rw [hfil] at h
  exact h

end Claims
